import Mathlib

/-!
# Verification of the carpool driver-fairness engine

Shallow embedding of the fairness scheduling algorithm of `src/App.tsx`
(`nextDriver`, lines 75-110, and the driver computation of the add-ride dialog,
line 489).

Modelling conventions:
* member IDs are opaque strings;
* ride dates and the reference instant are epoch milliseconds (`ℤ`), the
  value of `new Date(...).getTime()`;
* JavaScript numbers are idealised as real numbers (`ℝ`), so the decayed
  weight `Math.pow(0.92, months)` is real exponentiation `Real.rpow`;
* the two `Map`s keyed by the present members are modelled as total
  functions defaulting to `0` (the source reads them with `?? 0` / `|| 0`),
  and the `counts.has(r.driverId)` key test is membership in `present`,
  since the maps are initialised with exactly the members of `present`;
* `Array.prototype.sort` with a consistent comparator is, per the
  ECMAScript specification, a stable sort; it is modelled by
  `List.mergeSort` ordered by "the comparator is non-positive".
-/

namespace Covoit

/-- Member identifier (opaque string, equality by value). -/
abbrev ID := String

/-- A ride record (source lines 47-55).  `date` is the epoch-millisecond
instant `new Date(r.date).getTime()` of the stored ISO string. -/
structure Ride where
  id : Option String := none
  groupId : String := ""
  date : ℤ
  fromLoc : String := ""
  toLoc : String := ""
  participants : List ID := []
  driverId : ID
  deriving DecidableEq

/-- Monthly decay constant (source line 87). -/
noncomputable def DECAY : ℝ := 0.92

/-- Weight of one ride at reference instant `now`:
`Math.pow(DECAY, Math.max(0, (now - d) / (1000*60*60*24*30)))`
(source lines 90-91). -/
noncomputable def decayWeight (now d : ℤ) : ℝ :=
  DECAY ^ max 0 (((now : ℝ) - (d : ℝ)) / (1000 * 60 * 60 * 24 * 30))

/-- The running tallies of the history loop: weighted drive counts and
last-drive instants (source lines 78-79), as total functions defaulting
to `0` (i.e. `counts.get(x) ?? 0`, `lastDates.get(x) ?? 0`). -/
@[ext]
structure EngineState where
  counts : ID → ℝ
  lastDates : ID → ℤ

/-- After the init loop (source lines 82-85) every tracked member has
count `0` and last-drive instant `0`. -/
def initState : EngineState := ⟨fun _ => 0, fun _ => 0⟩

/-- One iteration of the history loop (source lines 88-96): if the driver of the ride is a tracked key (i.e. a member of `present`), add `1 * weight` to
its count and raise its last-drive instant to `max(current, r.date)`;
otherwise do nothing. -/
noncomputable def applyRide (now : ℤ) (present : List ID) (s : EngineState) (r : Ride) :
    EngineState :=
  if present.contains r.driverId then
    { counts := fun m => if m = r.driverId then s.counts m + 1 * decayWeight now r.date
        else s.counts m
      lastDates := fun m => if m = r.driverId then max (s.lastDates m) r.date
        else s.lastDates m }
  else s

/-- The whole history loop starting from the freshly initialised maps. -/
noncomputable def runHistory (now : ℤ) (present : List ID) (history : List Ride) :
    EngineState :=
  history.foldl (applyRide now present) initState

/-- The sort comparator (source lines 99-107): `ca - cb` when the counts
differ, otherwise `la - lb`. -/
noncomputable def cmpDriver (s : EngineState) (a b : ID) : ℝ :=
  if s.counts a ≠ s.counts b then s.counts a - s.counts b
  else ((s.lastDates a - s.lastDates b : ℤ) : ℝ)

/-- `a` may be placed before `b` by a stable comparator sort exactly when
the comparator is non-positive on `(a, b)`. -/
noncomputable def driverLE (s : EngineState) (a b : ID) : Bool :=
  decide (cmpDriver s a b ≤ 0)

/-- `nextDriver` (source lines 75-110): `null` when `present` is empty,
otherwise the first element of a stable sort of a copy of `present` by the
comparator. -/
noncomputable def nextDriver (present : List ID) (history : List Ride) (now : ℤ) :
    Option ID :=
  if present.isEmpty then none
  else (present.mergeSort (driverLE (runHistory now present history))).head?

/-- The composite ranking key of a member: (weighted count, last-drive). -/
noncomputable def keyOf (s : EngineState) (m : ID) : ℝ × ℤ :=
  (s.counts m, s.lastDates m)

/-- Strict lexicographic order on ranking keys: count ascending, then
last-drive instant ascending. -/
def lexLT (k₁ k₂ : ℝ × ℤ) : Prop :=
  k₁.1 < k₂.1 ∨ (k₁.1 = k₂.1 ∧ k₁.2 < k₂.2)

/-- Lexicographic order-or-equivalence on ranking keys. -/
def lexLE (k₁ k₂ : ℝ × ℤ) : Prop :=
  k₁.1 < k₂.1 ∨ (k₁.1 = k₂.1 ∧ k₁.2 ≤ k₂.2)

section
open Classical

/-- Specification-side selection: the first member in input order whose
key is lexicographically minimal among the keys of all listed members. -/
noncomputable def firstLexMin (key : ID → ℝ × ℤ) (l : List ID) : Option ID :=
  l.find? fun m => decide (∀ x ∈ l, lexLE (key m) (key x))

end

/-- The first minimal element of a list under a total preorder presented
as a boolean `le` (ties resolved to the earlier element). -/
def selectFirst {α : Type} (le : α → α → Bool) : List α → Option α
  | [] => none
  | a :: l =>
    match selectFirst le l with
    | none => some a
    | some y => if le a y then some a else some y

/-- Remove duplicates keeping the first occurrence of each element. -/
def dedupKeepFirst : List ID → List ID
  | [] => []
  | x :: xs => x :: dedupKeepFirst (xs.filter fun y => y != x)
termination_by l => l.length
decreasing_by
  simp only [List.length_cons]
  exact Nat.lt_succ_of_le (List.length_filter_le _ _)

/-- Driver persisted when the add-ride dialog is validated (source line
489): `nextDriver({ present, history: [] }) || present[0]`.  JavaScript
`||` falls through both on `null` and on the empty string, and
`present[0]` on an empty array is modelled by `none`. -/
noncomputable def addRideDriverId (present : List ID) (now : ℤ) : Option ID :=
  match nextDriver present [] now with
  | none => present.head?
  | some d => if d = "" then present.head? else some d

/-! ## Order facts about the ranking key and the comparator -/

lemma lexLE_refl (k : ℝ × ℤ) : lexLE k k := Or.inr ⟨rfl, le_refl _⟩

lemma lexLE_trans {k₁ k₂ k₃ : ℝ × ℤ} (h₁ : lexLE k₁ k₂) (h₂ : lexLE k₂ k₃) :
    lexLE k₁ k₃ := by
  rcases h₁ with h₁ | ⟨e₁, l₁⟩ <;> rcases h₂ with h₂ | ⟨e₂, l₂⟩
  · exact Or.inl (lt_trans h₁ h₂)
  · exact Or.inl (e₂ ▸ h₁)
  · exact Or.inl (e₁ ▸ h₂)
  · exact Or.inr ⟨e₁.trans e₂, le_trans l₁ l₂⟩

lemma lexLE_total (k₁ k₂ : ℝ × ℤ) : lexLE k₁ k₂ ∨ lexLE k₂ k₁ := by
  rcases lt_trichotomy k₁.1 k₂.1 with h | h | h
  · exact Or.inl (Or.inl h)
  · rcases le_total k₁.2 k₂.2 with h' | h'
    · exact Or.inl (Or.inr ⟨h, h'⟩)
    · exact Or.inr (Or.inr ⟨h.symm, h'⟩)
  · exact Or.inr (Or.inl h)

lemma cmpDriver_nonpos_iff (s : EngineState) (a b : ID) :
    cmpDriver s a b ≤ 0 ↔ lexLE (keyOf s a) (keyOf s b) := by
  simp only [cmpDriver, lexLE, keyOf]
  by_cases h : s.counts a = s.counts b
  · rw [if_neg (not_not_intro h)]
    constructor
    · intro hle
      have h2 : (s.lastDates a - s.lastDates b : ℤ) ≤ 0 := by exact_mod_cast hle
      exact Or.inr ⟨h, by omega⟩
    · rintro (hlt | ⟨-, hle⟩)
      · exact absurd hlt (by rw [h]; exact lt_irrefl _)
      · have h2 : (s.lastDates a - s.lastDates b : ℤ) ≤ 0 := by omega
        exact_mod_cast h2
  · rw [if_pos h]
    constructor
    · intro hle
      exact Or.inl (lt_of_le_of_ne (sub_nonpos.mp hle) h)
    · rintro (hlt | ⟨heq, -⟩)
      · exact sub_nonpos.mpr (le_of_lt hlt)
      · exact absurd heq h

lemma driverLE_iff (s : EngineState) (a b : ID) :
    driverLE s a b = true ↔ lexLE (keyOf s a) (keyOf s b) := by
  simp [driverLE, cmpDriver_nonpos_iff]

lemma driverLE_trans (s : EngineState) :
    ∀ a b c : ID, driverLE s a b → driverLE s b c → driverLE s a c := by
  intro a b c h₁ h₂
  rw [driverLE_iff] at h₁ h₂ ⊢
  exact lexLE_trans h₁ h₂

lemma driverLE_total (s : EngineState) :
    ∀ a b : ID, driverLE s a b || driverLE s b a := by
  intro a b
  rcases lexLE_total (keyOf s a) (keyOf s b) with h | h
  · simp [driverLE_iff, h]
  · simp [driverLE_iff, h]

lemma driverLE_self (s : EngineState) (a : ID) : driverLE s a a = true :=
  (driverLE_iff s a a).mpr (lexLE_refl _)

/-! ## The first minimal element of a stable comparator sort -/

lemma selectFirst_eq_none_iff {α : Type} (le : α → α → Bool) (l : List α) :
    selectFirst le l = none ↔ l = [] := by
  cases l with
  | nil => simp [selectFirst]
  | cons a l =>
    cases h : selectFirst le l with
    | none => simp [selectFirst, h]
    | some y =>
      simp only [selectFirst, h]
      split <;> simp

lemma selectFirst_mem {α : Type} {le : α → α → Bool} :
    ∀ {l : List α} {y : α}, selectFirst le l = some y → y ∈ l := by
  intro l
  induction l with
  | nil => simp [selectFirst]
  | cons a l ih =>
    intro y h
    cases h' : selectFirst le l with
    | none =>
      simp only [selectFirst, h', Option.some.injEq] at h
      simp [← h]
    | some z =>
      simp only [selectFirst, h'] at h
      split at h <;> simp only [Option.some.injEq] at h
      · simp [← h]
      · exact List.mem_cons_of_mem a (h ▸ ih h')

lemma selectFirst_isLB {α : Type} {le : α → α → Bool}
    (trans : ∀ a b c : α, le a b → le b c → le a c)
    (total : ∀ a b : α, le a b || le b a) :
    ∀ {l : List α} {y : α}, selectFirst le l = some y → ∀ x ∈ l, le y x = true := by
  intro l
  induction l with
  | nil => simp [selectFirst]
  | cons a l ih =>
    intro y h x hx
    have haa : le a a = true := by have := total a a; simpa using this
    cases h' : selectFirst le l with
    | none =>
      simp only [selectFirst, h', Option.some.injEq] at h
      have : l = [] := (selectFirst_eq_none_iff le l).mp h'
      subst this
      rcases List.mem_singleton.mp hx with rfl
      rw [← h]; exact haa
    | some z =>
      simp only [selectFirst, h'] at h
      by_cases haz : le a z = true
      · rw [if_pos haz] at h
        simp only [Option.some.injEq] at h
        subst h
        rcases List.mem_cons.mp hx with rfl | hx
        · exact haa
        · exact trans _ _ _ haz (ih h' x hx)
      · rw [if_neg haz] at h
        simp only [Option.some.injEq] at h
        subst h
        rcases List.mem_cons.mp hx with rfl | hx
        · have h₂ := total x z
          simp only [Bool.or_eq_true] at h₂
          rcases h₂ with h₁ | h₁
          · exact absurd h₁ haz
          · exact h₁
        · exact ih h' x hx

lemma head?_mergeSort {α : Type} {le : α → α → Bool}
    (trans : ∀ a b c : α, le a b → le b c → le a c)
    (total : ∀ a b : α, le a b || le b a) :
    ∀ l : List α, (l.mergeSort le).head? = selectFirst le l := by
  intro l
  induction l with
  | nil => simp [selectFirst]
  | cons a l ih =>
    obtain ⟨l₁, l₂, h₁, h₂, h₃⟩ := List.mergeSort_cons trans total a l
    cases l₁ with
    | nil =>
      simp only [List.nil_append] at h₁ h₂
      rw [h₁]
      simp only [List.head?_cons, selectFirst]
      rw [h₂] at ih
      rw [← ih]
      cases l₂ with
      | nil => simp
      | cons y t =>
        have hs := List.sorted_mergeSort trans total (a :: l)
        rw [h₁] at hs
        have hay : le a y = true := (List.pairwise_cons.mp hs).1 y (by simp)
        simp [hay]
    | cons b l₁' =>
      have hb : le a b = false := by
        have := h₃ b (by simp)
        simpa using this
      rw [h₁]
      simp only [List.cons_append, List.head?_cons]
      have hsel : selectFirst le l = some b := by
        rw [← ih, h₂]
        simp
      simp [selectFirst, hsel, hb]

lemma find?_congr_mem {α : Type} {p q : α → Bool} :
    ∀ {l : List α}, (∀ a ∈ l, p a = q a) → l.find? p = l.find? q := by
  intro l
  induction l with
  | nil => simp
  | cons a l ih =>
    intro h
    rw [List.find?_cons, List.find?_cons, h a (by simp)]
    cases hq : q a with
    | true => rfl
    | false => exact ih fun x hx => h x (List.mem_cons_of_mem a hx)

lemma selectFirst_eq_find?_all {α : Type} {le : α → α → Bool}
    (trans : ∀ a b c : α, le a b → le b c → le a c)
    (total : ∀ a b : α, le a b || le b a) :
    ∀ l : List α, selectFirst le l = l.find? fun m => l.all (le m) := by
  intro l
  induction l with
  | nil => simp [selectFirst]
  | cons a l ih =>
    have haa : le a a = true := by have := total a a; simpa using this
    cases h : selectFirst le l with
    | none =>
      have : l = [] := (selectFirst_eq_none_iff le l).mp h
      subst this
      simp [selectFirst, haa]
    | some y =>
      have hy_mem : y ∈ l := selectFirst_mem h
      have hy_lb : ∀ x ∈ l, le y x = true := selectFirst_isLB trans total h
      by_cases hay : le a y = true
      · have hsel : selectFirst le (a :: l) = some a := by
          simp only [selectFirst, h]
          rw [if_pos hay]
        have hpred : ((a :: l).all (le a)) = true := by
          rw [List.all_eq_true]
          intro x hx
          rcases List.mem_cons.mp hx with rfl | hx
          · exact haa
          · exact trans _ _ _ hay (hy_lb x hx)
        rw [hsel, List.find?_cons]
        simp [hpred]
      · have hya : le y a = true := by
          have h₂ := total a y
          simp only [Bool.or_eq_true] at h₂
          rcases h₂ with h₁ | h₁
          · exact absurd h₁ hay
          · exact h₁
        have hsel : selectFirst le (a :: l) = some y := by
          simp only [selectFirst, h]
          rw [if_neg hay]
        have hpred : ((a :: l).all (le a)) = false := by
          rw [Bool.eq_false_iff]
          intro hall
          exact hay (List.all_eq_true.mp hall y (List.mem_cons_of_mem a hy_mem))
        rw [hsel, List.find?_cons]
        simp only [hpred]
        have hcongr : ∀ m ∈ l, ((a :: l).all (le m)) = (l.all (le m)) := by
          intro m hm
          cases hall : l.all (le m) with
          | true =>
            have hml : ∀ x ∈ l, le m x = true := List.all_eq_true.mp hall
            have hma : le m a = true := trans _ _ _ (hml y hy_mem) hya
            simp [List.all_cons, hma, hall]
          | false =>
            simp [List.all_cons, hall]
        rw [find?_congr_mem hcongr, ← ih, h]

/-! ## Engine state computations -/

lemma applyRide_tracked {now : ℤ} {present : List ID} {s : EngineState} {r : Ride}
    (h : present.contains r.driverId = true) :
    applyRide now present s r
      = { counts := fun m => if m = r.driverId then s.counts m + 1 * decayWeight now r.date
            else s.counts m
          lastDates := fun m => if m = r.driverId then max (s.lastDates m) r.date
            else s.lastDates m } := by
  simp only [applyRide]
  rw [if_pos h]

lemma applyRide_not_tracked {now : ℤ} {present : List ID} {s : EngineState} {r : Ride}
    (h : present.contains r.driverId = false) : applyRide now present s r = s := by
  simp only [applyRide]
  rw [if_neg]
  intro hmem
  rw [hmem] at h
  simp at h

lemma counts_applyRide_self {now : ℤ} {present : List ID} {s : EngineState} {r : Ride}
    (h : present.contains r.driverId = true) :
    (applyRide now present s r).counts r.driverId
      = s.counts r.driverId + 1 * decayWeight now r.date := by
  rw [applyRide_tracked h]
  simp

lemma counts_applyRide_other {now : ℤ} {present : List ID} {s : EngineState} {r : Ride}
    {m : ID} (hm : m ≠ r.driverId) :
    (applyRide now present s r).counts m = s.counts m := by
  by_cases h : present.contains r.driverId = true
  · rw [applyRide_tracked h]
    simp [hm]
  · rw [applyRide_not_tracked (by simpa using h)]

lemma lastDates_applyRide_self {now : ℤ} {present : List ID} {s : EngineState} {r : Ride}
    (h : present.contains r.driverId = true) :
    (applyRide now present s r).lastDates r.driverId
      = max (s.lastDates r.driverId) r.date := by
  rw [applyRide_tracked h]
  simp

lemma lastDates_applyRide_other {now : ℤ} {present : List ID} {s : EngineState} {r : Ride}
    {m : ID} (hm : m ≠ r.driverId) :
    (applyRide now present s r).lastDates m = s.lastDates m := by
  by_cases h : present.contains r.driverId = true
  · rw [applyRide_tracked h]
    simp [hm]
  · rw [applyRide_not_tracked (by simpa using h)]

lemma counts_foldl (now : ℤ) (present : List ID) :
    ∀ (h : List Ride) (s : EngineState) (m : ID),
      (h.foldl (applyRide now present) s).counts m
        = s.counts m
          + ((h.filter fun r => present.contains r.driverId && (r.driverId == m)).map
              fun r => decayWeight now r.date).sum := by
  intro h
  induction h with
  | nil => intro s m; simp
  | cons r t ih =>
    intro s m
    rw [List.foldl_cons]
    by_cases hc : present.contains r.driverId = true
    · by_cases hm : r.driverId = m
      · subst hm
        rw [List.filter_cons_of_pos (by rw [hc, beq_self_eq_true]; rfl)]
        simp only [List.map_cons, List.sum_cons]
        rw [ih, counts_applyRide_self hc]
        ring
      · rw [List.filter_cons_of_neg (by simp [hm])]
        rw [ih, counts_applyRide_other (fun e => hm e.symm)]
    · rw [List.filter_cons_of_neg
        (by intro hh; rw [Bool.and_eq_true] at hh; exact hc hh.1)]
      rw [ih, applyRide_not_tracked (by simpa using hc)]

lemma lastDates_foldl (now : ℤ) (present : List ID) :
    ∀ (h : List Ride) (s : EngineState) (m : ID),
      (h.foldl (applyRide now present) s).lastDates m
        = ((h.filter fun r => present.contains r.driverId && (r.driverId == m)).map
            Ride.date).foldl max (s.lastDates m) := by
  intro h
  induction h with
  | nil => intro s m; simp
  | cons r t ih =>
    intro s m
    rw [List.foldl_cons]
    by_cases hc : present.contains r.driverId = true
    · by_cases hm : r.driverId = m
      · subst hm
        rw [List.filter_cons_of_pos (by rw [hc, beq_self_eq_true]; rfl)]
        simp only [List.map_cons, List.foldl_cons]
        rw [ih, lastDates_applyRide_self hc]
      · rw [List.filter_cons_of_neg (by simp [hm])]
        rw [ih, lastDates_applyRide_other (fun e => hm e.symm)]
    · rw [List.filter_cons_of_neg
        (by intro hh; rw [Bool.and_eq_true] at hh; exact hc hh.1)]
      rw [ih, applyRide_not_tracked (by simpa using hc)]

lemma filter_tracked_eq {present : List ID} {h : List Ride} {m : ID}
    (hm : present.contains m = true) :
    (h.filter fun r => present.contains r.driverId && (r.driverId == m))
      = h.filter fun r => r.driverId == m := by
  apply List.filter_congr
  intro r _
  by_cases hd : r.driverId = m
  · rw [hd, hm, Bool.true_and]
  · have hb : (r.driverId == m) = false := by simp [hd]
    rw [hb, Bool.and_false]

lemma runHistory_counts {now : ℤ} {present : List ID} {h : List Ride} {m : ID}
    (hm : present.contains m = true) :
    (runHistory now present h).counts m
      = ((h.filter fun r => r.driverId == m).map fun r => decayWeight now r.date).sum := by
  rw [runHistory, counts_foldl, filter_tracked_eq hm]
  simp [initState]

lemma runHistory_lastDates {now : ℤ} {present : List ID} {h : List Ride} {m : ID}
    (hm : present.contains m = true) :
    (runHistory now present h).lastDates m
      = ((h.filter fun r => r.driverId == m).map Ride.date).foldl max 0 := by
  rw [runHistory, lastDates_foldl, filter_tracked_eq hm]
  rfl

lemma applyRide_comm (now : ℤ) (present : List ID) (s : EngineState) (r₁ r₂ : Ride) :
    applyRide now present (applyRide now present s r₁) r₂
      = applyRide now present (applyRide now present s r₂) r₁ := by
  by_cases h₁ : present.contains r₁.driverId = true
  · by_cases h₂ : present.contains r₂.driverId = true
    · simp only [applyRide_tracked h₁, applyRide_tracked h₂]
      ext m
      · simp only
        split_ifs <;> ring
      · simp only
        split_ifs <;> omega
    · simp only [applyRide_not_tracked (show present.contains r₂.driverId = false
        by simpa using h₂)]
  · simp only [applyRide_not_tracked (show present.contains r₁.driverId = false
      by simpa using h₁)]

lemma runHistory_perm {now : ℤ} {present : List ID} {h₁ h₂ : List Ride}
    (hp : h₁.Perm h₂) : runHistory now present h₁ = runHistory now present h₂ :=
  hp.foldl_eq' (fun x _ y _ z => applyRide_comm now present z x y) initState

lemma runHistory_congr_present {now : ℤ} {p q : List ID} {h : List Ride}
    (hpq : ∀ x, p.contains x = q.contains x) :
    runHistory now p h = runHistory now q h := by
  have : applyRide now p = applyRide now q := by
    funext s r
    simp only [applyRide, hpq]
  rw [runHistory, runHistory, this]

/-! ## Characterizations of `nextDriver` -/

lemma nextDriver_nil (history : List Ride) (now : ℤ) :
    nextDriver [] history now = none := by
  simp [nextDriver]

lemma nextDriver_eq_head?_mergeSort {present : List ID} {history : List Ride} {now : ℤ}
    (hp : present ≠ []) :
    nextDriver present history now
      = (present.mergeSort (driverLE (runHistory now present history))).head? := by
  rw [nextDriver, if_neg]
  simp [hp]

lemma nextDriver_eq_selectFirst {present : List ID} {history : List Ride} {now : ℤ}
    (hp : present ≠ []) :
    nextDriver present history now
      = selectFirst (driverLE (runHistory now present history)) present := by
  rw [nextDriver_eq_head?_mergeSort hp,
    head?_mergeSort (driverLE_trans _) (driverLE_total _)]

lemma nextDriver_eq_firstLexMin {present : List ID} {history : List Ride} {now : ℤ}
    (hp : present ≠ []) :
    nextDriver present history now
      = firstLexMin (keyOf (runHistory now present history)) present := by
  rw [nextDriver_eq_selectFirst hp,
    selectFirst_eq_find?_all (driverLE_trans _) (driverLE_total _), firstLexMin]
  apply find?_congr_mem
  intro m _
  rw [Bool.eq_iff_iff]
  simp only [List.all_eq_true, decide_eq_true_eq]
  constructor
  · intro hall x hx
    exact (driverLE_iff _ _ _).mp (hall x hx)
  · intro hall x hx
    exact (driverLE_iff _ _ _).mpr (hall x hx)

lemma nextDriver_eq_none_iff (p : List ID) (h : List Ride) (t : ℤ) :
    nextDriver p h t = none ↔ p = [] := by
  cases p with
  | nil => simp [nextDriver]
  | cons a l =>
    rw [nextDriver_eq_head?_mergeSort (by simp)]
    constructor
    · intro hh
      have hperm := List.mergeSort_perm (a :: l) (driverLE (runHistory t (a :: l) h))
      rw [List.head?_eq_none_iff] at hh
      rw [hh] at hperm
      exact absurd hperm.symm.eq_nil (by simp)
    · intro hh
      simp at hh

lemma nextDriver_mem {p : List ID} {h : List Ride} {t : ℤ} {d : ID}
    (hd : nextDriver p h t = some d) : d ∈ p := by
  cases p with
  | nil => simp [nextDriver] at hd
  | cons a l =>
    rw [nextDriver_eq_head?_mergeSort (by simp)] at hd
    exact List.mem_mergeSort.mp (List.mem_of_mem_head? (by rw [hd]; simp))

lemma driverLE_initState (a b : ID) : driverLE initState a b = true := by
  rw [driverLE_iff]
  exact Or.inr ⟨rfl, le_refl _⟩

lemma selectFirst_all_true {α : Type} {le : α → α → Bool} (h : ∀ a b, le a b = true) :
    ∀ l : List α, selectFirst le l = l.head? := by
  intro l
  cases l with
  | nil => rfl
  | cons a l =>
    cases h' : selectFirst le l with
    | none => simp [selectFirst, h']
    | some y => simp [selectFirst, h', h a y]

lemma nextDriver_empty_history {p : List ID} (t : ℤ) (hp : p ≠ []) :
    nextDriver p [] t = p.head? := by
  rw [nextDriver_eq_selectFirst hp]
  exact selectFirst_all_true (fun a b => driverLE_initState a b) p

/-! ## Arithmetic facts about the decay weight -/

lemma decayWeight_eq_one {now d : ℤ} (h : now ≤ d) : decayWeight now d = 1 := by
  rw [decayWeight]
  have hnum : ((now : ℝ) - (d : ℝ)) ≤ 0 := by
    have : (now : ℝ) ≤ (d : ℝ) := by exact_mod_cast h
    linarith
  have hmax : max 0 (((now : ℝ) - (d : ℝ)) / (1000 * 60 * 60 * 24 * 30)) = 0 := by
    rw [max_eq_left]
    exact div_nonpos_of_nonpos_of_nonneg hnum (by norm_num)
  rw [hmax, Real.rpow_zero]

lemma decayWeight_strict_anti {now d₁ d₂ : ℤ} (h₁ : d₁ < d₂) (h₂ : d₂ ≤ now) :
    decayWeight now d₁ < decayWeight now d₂ := by
  rw [decayWeight, decayWeight, DECAY]
  have hC : (0 : ℝ) < 1000 * 60 * 60 * 24 * 30 := by norm_num
  have he₂ : (0 : ℝ) ≤ ((now : ℝ) - (d₂ : ℝ)) / (1000 * 60 * 60 * 24 * 30) := by
    apply div_nonneg _ (le_of_lt hC)
    have : (d₂ : ℝ) ≤ (now : ℝ) := by exact_mod_cast h₂
    linarith
  have hlt : ((now : ℝ) - (d₂ : ℝ)) / (1000 * 60 * 60 * 24 * 30)
      < ((now : ℝ) - (d₁ : ℝ)) / (1000 * 60 * 60 * 24 * 30) := by
    apply div_lt_div_of_pos_right _ hC
    have : (d₁ : ℝ) < (d₂ : ℝ) := by exact_mod_cast h₁
    linarith
  rw [max_eq_right he₂, max_eq_right (le_trans he₂ (le_of_lt hlt))]
  exact Real.rpow_lt_rpow_of_exponent_gt (by norm_num) (by norm_num) hlt

lemma decayWeight_pos (now d : ℤ) : 0 < decayWeight now d := by
  rw [decayWeight, DECAY]
  exact Real.rpow_pos_of_pos (by norm_num) _

/-! ## Duplicate removal keeps the selection unchanged -/

lemma dedupKeepFirst_nil : dedupKeepFirst [] = [] := by
  rw [dedupKeepFirst]

lemma dedupKeepFirst_cons (x : ID) (xs : List ID) :
    dedupKeepFirst (x :: xs) = x :: dedupKeepFirst (xs.filter fun y => y != x) := by
  rw [dedupKeepFirst]

lemma mem_dedupKeepFirst (a : ID) : ∀ l : List ID, a ∈ dedupKeepFirst l ↔ a ∈ l := by
  suffices H : ∀ (n : ℕ) (l : List ID), l.length ≤ n → (a ∈ dedupKeepFirst l ↔ a ∈ l) from
    fun l => H l.length l le_rfl
  intro n
  induction n with
  | zero =>
    intro l hl
    have : l = [] := by
      cases l with
      | nil => rfl
      | cons x xs => simp at hl
    subst this
    rw [dedupKeepFirst_nil]
  | succ n ih =>
    intro l hl
    cases l with
    | nil => rw [dedupKeepFirst_nil]
    | cons x xs =>
      rw [dedupKeepFirst_cons]
      by_cases hx : a = x
      · subst hx
        simp
      · simp only [List.mem_cons]
        have hlen : (xs.filter fun y => y != x).length ≤ n :=
          le_trans (List.length_filter_le _ _) (Nat.le_of_succ_le_succ hl)
        rw [ih _ hlen, List.mem_filter]
        constructor
        · rintro (h | ⟨h, -⟩)
          · exact absurd h hx
          · exact Or.inr h
        · rintro (h | h)
          · exact absurd h hx
          · exact Or.inr ⟨h, by simp [hx]⟩

lemma contains_dedupKeepFirst (l : List ID) (x : ID) :
    (dedupKeepFirst l).contains x = l.contains x := by
  rw [Bool.eq_iff_iff]
  constructor
  · intro hc
    have hm : x ∈ dedupKeepFirst l := by simpa using hc
    have : x ∈ l := (mem_dedupKeepFirst x l).mp hm
    simpa using this
  · intro hc
    have hm : x ∈ l := by simpa using hc
    have : x ∈ dedupKeepFirst l := (mem_dedupKeepFirst x l).mpr hm
    simpa using this

lemma find?_filter_ne {p : ID → Bool} {a : ID} (ha : p a = false) :
    ∀ l : List ID, (l.filter fun y => y != a).find? p = l.find? p := by
  intro l
  induction l with
  | nil => simp
  | cons b l ih =>
    by_cases hb : b = a
    · subst hb
      rw [List.filter_cons_of_neg (by simp)]
      rw [ih, List.find?_cons_of_neg _ (by simp [ha])]
    · rw [List.filter_cons_of_pos (by simp [hb])]
      rw [List.find?_cons, List.find?_cons]
      cases hpb : p b with
      | true => rfl
      | false => exact ih

lemma find?_dedupKeepFirst {p : ID → Bool} :
    ∀ l : List ID, (dedupKeepFirst l).find? p = l.find? p := by
  suffices H : ∀ (n : ℕ) (l : List ID), l.length ≤ n →
      (dedupKeepFirst l).find? p = l.find? p from
    fun l => H l.length l le_rfl
  intro n
  induction n with
  | zero =>
    intro l hl
    have : l = [] := by
      cases l with
      | nil => rfl
      | cons x xs => simp at hl
    subst this
    rw [dedupKeepFirst_nil]
  | succ n ih =>
    intro l hl
    cases l with
    | nil => rw [dedupKeepFirst_nil]
    | cons x xs =>
      rw [dedupKeepFirst_cons, List.find?_cons, List.find?_cons]
      cases hx : p x with
      | true => rfl
      | false =>
        have hlen : (xs.filter fun y => y != x).length ≤ n :=
          le_trans (List.length_filter_le _ _) (Nat.le_of_succ_le_succ hl)
        rw [ih _ hlen]
        exact find?_filter_ne hx xs

/-! ## The claims -/

/-- C1: for every non-empty present list and every history, `nextDriver`
returns the present member that is minimal under the lexicographic order
(weighted drive count ascending, then last-drive instant ascending, then
input position): the stable comparator sort followed by taking the first
element agrees with the first input-order member of lexicographically
minimal key. -/
theorem claim_C1_stable_lex_ranking (present : List ID) (history : List Ride) (now : ℤ)
    (hp : present ≠ []) :
    nextDriver present history now
      = firstLexMin (keyOf (runHistory now present history)) present :=
  nextDriver_eq_firstLexMin hp

theorem claim_C1_witness :
    ((["a", "b"] : List ID) ≠ [])
      ∧ nextDriver ["a", "b"] [] 0
          = firstLexMin (keyOf (runHistory 0 ["a", "b"] [])) ["a", "b"] :=
  ⟨by decide, claim_C1_stable_lex_ranking ["a", "b"] [] 0 (by decide)⟩

/-- C2: a ride whose driver is tracked adds to the weighted
count exactly `0.92 ^ max 0 ((now - r.date) / (1000*60*60*24*30))` (times
one) count of that driver, raises the last-drive instant of that driver to `max(current, r.date)`,
and a ride dated at or after the reference time contributes exactly `1`. -/
theorem claim_C2_decay_weight (now : ℤ) (present : List ID) (s : EngineState) (r : Ride)
    (hr : present.contains r.driverId = true) :
    (applyRide now present s r).counts r.driverId
        = s.counts r.driverId
          + (0.92 : ℝ) ^ max 0 (((now : ℝ) - (r.date : ℝ)) / (1000 * 60 * 60 * 24 * 30))
      ∧ (applyRide now present s r).lastDates r.driverId
          = max (s.lastDates r.driverId) r.date
      ∧ (now ≤ r.date → decayWeight now r.date = 1) := by
  refine ⟨?_, lastDates_applyRide_self hr, fun h => decayWeight_eq_one h⟩
  rw [counts_applyRide_self hr, one_mul]
  rfl

theorem claim_C2_witness :
    ((["a"] : List ID).contains (Ride.driverId { date := 0, driverId := "a" }) = true)
      ∧ ((applyRide 5 ["a"] initState { date := 0, driverId := "a" }).counts
            (Ride.driverId { date := 0, driverId := "a" })
          = initState.counts (Ride.driverId { date := 0, driverId := "a" })
            + (0.92 : ℝ) ^ max 0 ((((5 : ℤ) : ℝ)
                - ((Ride.date ({ date := 0, driverId := "a" } : Ride) : ℤ) : ℝ))
                / (1000 * 60 * 60 * 24 * 30))
          ∧ (applyRide 5 ["a"] initState { date := 0, driverId := "a" }).lastDates
                (Ride.driverId { date := 0, driverId := "a" })
              = max (initState.lastDates (Ride.driverId { date := 0, driverId := "a" }))
                  (Ride.date ({ date := 0, driverId := "a" } : Ride))
          ∧ ((5 : ℤ) ≤ Ride.date ({ date := 0, driverId := "a" } : Ride) →
              decayWeight 5 (Ride.date ({ date := 0, driverId := "a" } : Ride)) = 1)) :=
  ⟨by decide, claim_C2_decay_weight 5 ["a"] initState { date := 0, driverId := "a" }
    (by decide)⟩

/-- C3: `nextDriver` returns the null sentinel exactly when the present
list is empty, and any ID it returns belongs to the present list,
whatever the history contains. -/
theorem claim_C3_null_iff_empty (present : List ID) (history : List Ride) (now : ℤ) :
    (nextDriver present history now = none ↔ present = [])
      ∧ ∀ d : ID, nextDriver present history now = some d → d ∈ present :=
  ⟨nextDriver_eq_none_iff present history now, fun _ hd => nextDriver_mem hd⟩

theorem claim_C3_witness : ("a" : ID) ∈ (["a"] : List ID) :=
  (claim_C3_null_iff_empty ["a"] [] 0).2 "a" (nextDriver_empty_history 0 (by decide))

/-- C4: with an empty history all weighted counts tie at zero and all
last-drive instants tie at epoch-zero, so `nextDriver` returns the first
member of the present list in input order. -/
theorem claim_C4_empty_history_first (present : List ID) (now : ℤ) (hp : present ≠ []) :
    nextDriver present [] now = some (present.head hp) := by
  rw [nextDriver_empty_history now hp]
  exact List.head?_eq_head hp

theorem claim_C4_witness :
    ((["b", "a"] : List ID) ≠ []) ∧ nextDriver ["b", "a"] [] 42 = some "b" :=
  ⟨by decide, claim_C4_empty_history_first ["b", "a"] 42 (by decide)⟩

/-- C5: a ride whose driver is not in the present list is fully ignored:
inserting it anywhere in the history leaves the selected driver
unchanged. -/
theorem claim_C5_absent_driver_ignored (present : List ID) (h₁ h₂ : List Ride)
    (r : Ride) (now : ℤ) (hr : present.contains r.driverId = false) :
    nextDriver present (h₁ ++ r :: h₂) now = nextDriver present (h₁ ++ h₂) now := by
  have hs : runHistory now present (h₁ ++ r :: h₂) = runHistory now present (h₁ ++ h₂) := by
    rw [runHistory, runHistory, List.foldl_append, List.foldl_append, List.foldl_cons,
      applyRide_not_tracked hr]
  cases present with
  | nil => rw [nextDriver_nil, nextDriver_nil]
  | cons a l =>
    rw [nextDriver_eq_head?_mergeSort (by simp), nextDriver_eq_head?_mergeSort (by simp), hs]

theorem claim_C5_witness :
    ((["a"] : List ID).contains (Ride.driverId { date := 3, driverId := "b" }) = false)
      ∧ nextDriver ["a"] ([] ++ { date := 3, driverId := "b" } :: []) 9
          = nextDriver ["a"] ([] ++ []) 9 :=
  ⟨by decide,
    claim_C5_absent_driver_ignored ["a"] [] [] { date := 3, driverId := "b" } 9 (by decide)⟩

/-- C6: with two single-ride drivers both present and dates at or before
the reference time, the strictly older ride has a strictly smaller decayed
weight, and in the induced tie scenario the older-drive member is selected
whatever the input order of the two members. -/
theorem claim_C6_older_drive_preferred (m₁ m₂ : ID) (r₁ r₂ : Ride) (now : ℤ)
    (hne : m₁ ≠ m₂) (hd₁ : r₁.driverId = m₁) (hd₂ : r₂.driverId = m₂)
    (hlt : r₁.date < r₂.date) (hnow : r₂.date ≤ now) :
    decayWeight now r₁.date < decayWeight now r₂.date
      ∧ nextDriver [m₁, m₂] [r₁, r₂] now = some m₁
      ∧ nextDriver [m₂, m₁] [r₁, r₂] now = some m₁ := by
  have hw : decayWeight now r₁.date < decayWeight now r₂.date :=
    decayWeight_strict_anti hlt hnow
  have hb₁ : (m₂ == m₁) = false := by
    rw [beq_eq_false_iff_ne]
    exact Ne.symm hne
  have hb₂ : (m₁ == m₂) = false := by
    rw [beq_eq_false_iff_ne]
    exact hne
  have hfil₁ : ([r₁, r₂].filter fun r => r.driverId == m₁) = [r₁] := by
    simp [List.filter, hd₁, hd₂, hb₁]
  have hfil₂ : ([r₁, r₂].filter fun r => r.driverId == m₂) = [r₂] := by
    simp [List.filter, hd₁, hd₂, hb₂]
  set s := runHistory now [m₁, m₂] [r₁, r₂] with hsdef
  have hc₁ : s.counts m₁ = decayWeight now r₁.date := by
    rw [hsdef, runHistory_counts (by simp), hfil₁]
    simp
  have hc₂ : s.counts m₂ = decayWeight now r₂.date := by
    rw [hsdef, runHistory_counts (by simp), hfil₂]
    simp
  have hcc : s.counts m₁ < s.counts m₂ := by rw [hc₁, hc₂]; exact hw
  have hle : driverLE s m₁ m₂ = true :=
    (driverLE_iff s m₁ m₂).mpr (Or.inl hcc)
  have hnle : driverLE s m₂ m₁ = false := by
    rw [Bool.eq_false_iff]
    intro hcontra
    rw [driverLE_iff] at hcontra
    simp only [lexLE, keyOf] at hcontra
    rcases hcontra with h | ⟨h, -⟩
    · exact absurd hcc (not_lt_of_gt h)
    · exact absurd h.symm (ne_of_lt hcc)
  have hs' : runHistory now [m₂, m₁] [r₁, r₂] = s := by
    rw [hsdef]
    exact runHistory_congr_present fun x => by
      simp [List.contains_cons, Bool.or_comm]
  refine ⟨hw, ?_, ?_⟩
  · rw [nextDriver_eq_selectFirst (by simp), ← hsdef]
    simp [selectFirst, hle]
  · rw [nextDriver_eq_selectFirst (by simp), hs']
    simp [selectFirst, hnle]

theorem claim_C6_witness :
    (("a" : ID) ≠ "b")
      ∧ Ride.driverId { date := 0, driverId := "a" } = "a"
      ∧ Ride.driverId { date := 1, driverId := "b" } = "b"
      ∧ Ride.date ({ date := 0, driverId := "a" } : Ride)
          < Ride.date ({ date := 1, driverId := "b" } : Ride)
      ∧ Ride.date ({ date := 1, driverId := "b" } : Ride) ≤ (1 : ℤ)
      ∧ (decayWeight 1 (Ride.date ({ date := 0, driverId := "a" } : Ride))
            < decayWeight 1 (Ride.date ({ date := 1, driverId := "b" } : Ride))
          ∧ nextDriver ["a", "b"] [{ date := 0, driverId := "a" },
              { date := 1, driverId := "b" }] 1 = some "a"
          ∧ nextDriver ["b", "a"] [{ date := 0, driverId := "a" },
              { date := 1, driverId := "b" }] 1 = some "a") :=
  ⟨by decide, by decide, by decide, by decide, by decide,
    claim_C6_older_drive_preferred "a" "b" { date := 0, driverId := "a" }
      { date := 1, driverId := "b" } 1 (by decide) (by decide) (by decide)
      (by decide) (by decide)⟩

/-- C7: duplicate IDs in the present list change nothing: the selection
equals the one computed from the present list with duplicates removed
(keeping first occurrences). -/
theorem claim_C7_duplicates_harmless (present : List ID) (history : List Ride) (now : ℤ) :
    nextDriver present history now = nextDriver (dedupKeepFirst present) history now := by
  cases present with
  | nil => rw [dedupKeepFirst_nil]
  | cons a l =>
    have hdd : dedupKeepFirst (a :: l) = a :: dedupKeepFirst (l.filter fun y => y != a) :=
      dedupKeepFirst_cons a l
    have hdne : dedupKeepFirst (a :: l) ≠ [] := by rw [hdd]; simp
    rw [nextDriver_eq_firstLexMin (show (a :: l : List ID) ≠ [] by simp),
      nextDriver_eq_firstLexMin hdne]
    have hs : runHistory now (dedupKeepFirst (a :: l)) history
        = runHistory now (a :: l) history :=
      runHistory_congr_present fun x => contains_dedupKeepFirst (a :: l) x
    rw [hs]
    rw [firstLexMin, firstLexMin]
    refine Eq.trans (find?_dedupKeepFirst (a :: l)).symm (find?_congr_mem ?_)
    intro m _
    exact decide_eq_decide.mpr
      ⟨fun hall x hx => hall x ((mem_dedupKeepFirst x (a :: l)).mp hx),
        fun hall x hx => hall x ((mem_dedupKeepFirst x (a :: l)).mpr hx)⟩

/-- C8: the selection does not depend on the order in which history rides
are supplied: permuting the history leaves the result unchanged. -/
theorem claim_C8_history_order_irrelevant (present : List ID) (h₁ h₂ : List Ride)
    (now : ℤ) (hp : h₁.Perm h₂) :
    nextDriver present h₁ now = nextDriver present h₂ now := by
  cases present with
  | nil => rw [nextDriver_nil, nextDriver_nil]
  | cons a l =>
    rw [nextDriver_eq_head?_mergeSort (by simp), nextDriver_eq_head?_mergeSort (by simp),
      runHistory_perm hp]

theorem claim_C8_witness :
    ([({ date := 0, driverId := "a" } : Ride), { date := 1, driverId := "b" }].Perm
        [({ date := 1, driverId := "b" } : Ride), { date := 0, driverId := "a" }])
      ∧ nextDriver ["a"] [{ date := 0, driverId := "a" }, { date := 1, driverId := "b" }] 2
          = nextDriver ["a"] [{ date := 1, driverId := "b" }, { date := 0, driverId := "a" }] 2 :=
  ⟨List.Perm.swap _ _ [],
    claim_C8_history_order_irrelevant ["a"] _ _ 2 (List.Perm.swap _ _ [])⟩

/-- C9: `nextDriver` is deterministic once the reference time is supplied:
identical present list, history and reference time give identical
results. -/
theorem claim_C9_deterministic (p₁ p₂ : List ID) (h₁ h₂ : List Ride) (t₁ t₂ : ℤ)
    (hp : p₁ = p₂) (hh : h₁ = h₂) (ht : t₁ = t₂) :
    nextDriver p₁ h₁ t₁ = nextDriver p₂ h₂ t₂ := by
  rw [hp, hh, ht]

theorem claim_C9_witness :
    ((["a"] : List ID) = ["a"]) ∧ (([] : List Ride) = []) ∧ ((0 : ℤ) = 0)
      ∧ nextDriver ["a"] [] 0 = nextDriver ["a"] [] 0 :=
  ⟨rfl, rfl, rfl, claim_C9_deterministic ["a"] ["a"] [] [] 0 0 rfl rfl rfl⟩

/-- C10: the driver persisted by the add-ride dialog is computed from an
empty history (with fallback to the first present member), so for every
non-empty present list it is the first member of the present list and the
actual ride history of the group never influences it. -/
theorem claim_C10_persisted_driver_is_first (present : List ID) (now : ℤ)
    (hp : present ≠ []) :
    addRideDriverId present now = some (present.head hp) := by
  cases present with
  | nil => exact absurd rfl hp
  | cons a l =>
    have hnd : nextDriver (a :: l) [] now = some a := by
      rw [nextDriver_empty_history now (by simp)]
      rfl
    simp only [addRideDriverId, hnd]
    by_cases ha : a = ""
    · rw [if_pos ha]
      rfl
    · rw [if_neg ha]
      rfl

theorem claim_C10_witness :
    ((["u", "v"] : List ID) ≠ []) ∧ addRideDriverId ["u", "v"] 7 = some "u" :=
  ⟨by decide, claim_C10_persisted_driver_is_first ["u", "v"] 7 (by decide)⟩

end Covoit
